import Mathlib

/-!
Verification of the product-search reconciliation core (src/src/App.jsx).

The development shallowly embeds the core functions of the app — identifier
extraction (`extractIdentifier`), descriptive-field resolution
(`getFieldValue`), catalog indexing and matching (`matchResult`), coverage
statistics (`matchStats`), request insights / duplicate detection
(`requestInsights`) and the top-N distributions (`topManufacturers`,
`topFamilies`) — as executable Lean functions over association lists, and
proves the specified properties about them.

Modelling conventions:
* a JavaScript record (plain object produced by the spreadsheet parsers) is an
  ordered association list `List (String × String)`;
* `Object.fromEntries` / object-literal indexing is last-write-wins, modelled
  by `lowerEntryGet`;
* a JavaScript `Map` is an insertion-ordered association list with unique
  keys; `Map.set` updates in place or appends (`mapSet`), `Map.get` finds the
  unique binding (`mapGet`);
* `String.prototype.toUpperCase`/`toLowerCase` are modelled by the ASCII case
  maps `jsUpper`/`jsLower`, string interpolation of an index by the decimal
  rendering `natStr`, and `Math.round` over non-negative rationals `c / t`
  by `jsRound100`;
* `Array.prototype.sort` with the numeric descending comparator used in the
  app is stable, so it is modelled by the stable descending insertion sort
  `sortDesc`.
-/

namespace ProductSearch

/-! ### JS string primitives: ASCII case maps and decimal rendering -/

theorem toNat_ofNat_of_lt (n : Nat) (h : n < 55296) : (Char.ofNat n).toNat = n := by
  have hv : n.isValidChar := Or.inl h
  rw [Char.ofNat, dif_pos hv]
  rfl

/-- ASCII uppercasing of one character (model of the effect of
`String.prototype.toUpperCase` on each character). -/
def upChar (c : Char) : Char :=
  if 97 ≤ c.toNat ∧ c.toNat ≤ 122 then Char.ofNat (c.toNat - 32) else c

/-- ASCII lowercasing of one character. -/
def downChar (c : Char) : Char :=
  if 65 ≤ c.toNat ∧ c.toNat ≤ 90 then Char.ofNat (c.toNat + 32) else c

/-- Model of `String.prototype.toUpperCase`. -/
def jsUpper (s : String) : String := ⟨s.data.map upChar⟩

/-- Model of `String.prototype.toLowerCase`. -/
def jsLower (s : String) : String := ⟨s.data.map downChar⟩

theorem upChar_toNat_of_lower (c : Char) (h : 97 ≤ c.toNat ∧ c.toNat ≤ 122) :
    (upChar c).toNat = c.toNat - 32 := by
  rw [upChar, if_pos h]
  exact toNat_ofNat_of_lt _ (by omega)

theorem upChar_idem (c : Char) : upChar (upChar c) = upChar c := by
  by_cases h : 97 ≤ c.toNat ∧ c.toNat ≤ 122
  · have h1 : (upChar c).toNat = c.toNat - 32 := upChar_toNat_of_lower c h
    conv_lhs => rw [upChar]
    rw [if_neg (by omega)]
  · rw [show upChar c = c from by rw [upChar, if_neg h]]
    rw [upChar, if_neg h]

theorem map_upChar_idem (l : List Char) : (l.map upChar).map upChar = l.map upChar := by
  induction l with
  | nil => rfl
  | cons c t ih => simp [List.map_cons, ih, upChar_idem]

theorem jsUpper_idem (s : String) : jsUpper (jsUpper s) = jsUpper s := by
  cases s with
  | mk l =>
      show (⟨(l.map upChar).map upChar⟩ : String) = ⟨l.map upChar⟩
      rw [map_upChar_idem]

theorem data_append (s t : String) : (s ++ t).data = s.data ++ t.data := rfl

/-- A `jsUpper`-fixed-point never starts with the lowercase letters of
`"row-"`. -/
theorem fixed_ne_row_append (t s : String) (hf : jsUpper s = s) :
    "row-" ++ t ≠ s := by
  intro hs
  rw [← hs] at hf
  have hd : (jsUpper ("row-" ++ t)).data = ("row-" ++ t).data := congrArg String.data hf
  rw [jsUpper] at hd
  simp only [data_append] at hd
  have : upChar 'r' = 'r' := by
    have := congrArg (fun l => l.head?) hd
    simpa using this
  exact absurd this (by decide)

/-- A `jsUpper`-fixed-point never starts with the label prefix
`"Unidentified row "` (its second character is a lowercase `n`). -/
theorem fixed_ne_unidentified_append (t s : String) (hf : jsUpper s = s) :
    "Unidentified row " ++ t ≠ s := by
  intro hs
  rw [← hs] at hf
  have hd : (jsUpper ("Unidentified row " ++ t)).data = ("Unidentified row " ++ t).data :=
    congrArg String.data hf
  rw [jsUpper] at hd
  simp only [data_append] at hd
  have : upChar 'n' = 'n' := by
    have := congrArg (fun l => l.tail.head?) hd
    simpa using this
  exact absurd this (by decide)

/-- The character for a decimal digit. -/
def digitChar (d : Nat) : Char := Char.ofNat (48 + d)

/-- Little-endian decimal digits of `n`, with explicit fuel for structural
recursion. -/
def digitsRev : Nat → Nat → List Nat
  | 0, _ => []
  | fuel + 1, n => if n < 10 then [n] else n % 10 :: digitsRev fuel (n / 10)

/-- Model of JS number-to-string coercion for a non-negative index
(template literals such as `` `row-${index}` ``). -/
def natStr (n : Nat) : String := ⟨((digitsRev (n + 1) n).reverse).map digitChar⟩

def ofDigitsRev : List Nat → Nat
  | [] => 0
  | d :: ds => d + 10 * ofDigitsRev ds

theorem ofDigitsRev_digitsRev (fuel : Nat) :
    ∀ n, n ≤ fuel → ofDigitsRev (digitsRev fuel n) = n := by
  induction fuel with
  | zero => intro n hn; interval_cases n; rfl
  | succ f ih =>
      intro n hn
      by_cases h : n < 10
      · simp [digitsRev, h, ofDigitsRev]
      · have hdiv : n / 10 ≤ f := by
          have : n / 10 < n := Nat.div_lt_self (by omega) (by omega)
          omega
        simp only [digitsRev, if_neg h, ofDigitsRev, ih (n / 10) hdiv]
        omega

theorem digitsRev_lt_ten (fuel : Nat) :
    ∀ n d, d ∈ digitsRev fuel n → d < 10 := by
  induction fuel with
  | zero => intro n d hd; simp [digitsRev] at hd
  | succ f ih =>
      intro n d hd
      by_cases h : n < 10
      · simp [digitsRev, h] at hd; omega
      · simp only [digitsRev, if_neg h, List.mem_cons] at hd
        rcases hd with hd | hd
        · omega
        · exact ih _ _ hd

theorem digitChar_inj (d e : Nat) (hd : d < 10) (he : e < 10)
    (h : digitChar d = digitChar e) : d = e := by
  have h1 : (digitChar d).toNat = 48 + d := toNat_ofNat_of_lt _ (by omega)
  have h2 : (digitChar e).toNat = 48 + e := toNat_ofNat_of_lt _ (by omega)
  rw [h] at h1
  omega

theorem map_digitChar_inj (l1 l2 : List Nat) (h1 : ∀ d ∈ l1, d < 10)
    (h2 : ∀ d ∈ l2, d < 10) (h : l1.map digitChar = l2.map digitChar) : l1 = l2 := by
  induction l1 generalizing l2 with
  | nil => cases l2 with
    | nil => rfl
    | cons b t => simp at h
  | cons a t ih =>
      cases l2 with
      | nil => simp at h
      | cons b u =>
          simp only [List.map_cons, List.cons.injEq] at h
          have ha : a = b :=
            digitChar_inj a b (h1 a (by simp)) (h2 b (by simp)) h.1
          have ht : t = u :=
            ih u (fun d hd => h1 d (List.mem_cons_of_mem _ hd))
              (fun d hd => h2 d (List.mem_cons_of_mem _ hd)) h.2
          rw [ha, ht]

theorem natStr_inj (n m : Nat) (h : natStr n = natStr m) : n = m := by
  have hd : ((digitsRev (n + 1) n).reverse).map digitChar
      = ((digitsRev (m + 1) m).reverse).map digitChar := congrArg String.data h
  have hrev : (digitsRev (n + 1) n).reverse = (digitsRev (m + 1) m).reverse :=
    map_digitChar_inj _ _
      (fun d hdm => digitsRev_lt_ten _ _ _ (List.mem_reverse.mp hdm))
      (fun d hdm => digitsRev_lt_ten _ _ _ (List.mem_reverse.mp hdm)) hd
  have hlists : digitsRev (n + 1) n = digitsRev (m + 1) m :=
    List.reverse_injective hrev
  have h1 := ofDigitsRev_digitsRev (n + 1) n (by omega)
  have h2 := ofDigitsRev_digitsRev (m + 1) m (by omega)
  rw [hlists] at h1
  omega

/-! ### Records and JS map model -/

/-- A sanitized spreadsheet row: an insertion-ordered association of field
names to string values. -/
abbrev Record := List (String × String)

/-- Lookup in the lowercased-key object built by
`Object.fromEntries(Object.entries(record).map(([k, v]) => [k.toLowerCase(), v]))`:
a later entry overwrites an earlier one with the same lowercased key, so the
binding seen for `k` is the value of the last entry whose lowercased key is
`k`. -/
def lowerEntryGet : Record → String → Option String
  | [], _ => none
  | kv :: rest, k =>
      match lowerEntryGet rest k with
      | some v => some v
      | none => if jsLower kv.1 = k then some kv.2 else none

/-- `Map.prototype.get` on an insertion-ordered association list with unique
keys. -/
def mapGet {α : Type} : List (String × α) → String → Option α
  | [], _ => none
  | kv :: rest, k => if kv.1 = k then some kv.2 else mapGet rest k

/-- `Map.prototype.set`: update the existing binding in place, or append a new
one. -/
def mapSet {α : Type} : List (String × α) → String → α → List (String × α)
  | [], k, v => [(k, v)]
  | kv :: rest, k, v => if kv.1 = k then (k, v) :: rest else kv :: mapSet rest k v

theorem mapGet_mapSet_self {α : Type} (m : List (String × α)) (k : String) (v : α) :
    mapGet (mapSet m k v) k = some v := by
  induction m with
  | nil => simp [mapSet, mapGet]
  | cons kv rest ih =>
      by_cases h : kv.1 = k
      · simp [mapSet, h, mapGet]
      · simp [mapSet, h, mapGet, ih]

theorem mapGet_mapSet_ne {α : Type} (m : List (String × α)) (k k' : String) (v : α)
    (h : k' ≠ k) : mapGet (mapSet m k v) k' = mapGet m k' := by
  induction m with
  | nil => simp [mapSet, mapGet, Ne.symm h]
  | cons kv rest ih =>
      by_cases hk : kv.1 = k
      · subst hk
        simp [mapSet, mapGet, Ne.symm h]
      · simp [mapSet, mapGet, hk, ih]

theorem keys_mapSet {α : Type} (m : List (String × α)) (k : String) (v : α) :
    (mapSet m k v).map Prod.fst
      = if k ∈ m.map Prod.fst then m.map Prod.fst else m.map Prod.fst ++ [k] := by
  induction m with
  | nil => simp [mapSet]
  | cons kv rest ih =>
      by_cases h : kv.1 = k
      · simp [mapSet, h]
      · have hne : ¬ k = kv.1 := Ne.symm h
        by_cases hm : k ∈ rest.map Prod.fst
        · simp [mapSet, h, ih, hm, hne]
        · simp [mapSet, h, ih, hm, hne]

theorem nodup_keys_mapSet {α : Type} (m : List (String × α)) (k : String) (v : α)
    (h : (m.map Prod.fst).Nodup) : ((mapSet m k v).map Prod.fst).Nodup := by
  rw [keys_mapSet]
  by_cases hm : k ∈ m.map Prod.fst
  · rw [if_pos hm]; exact h
  · rw [if_neg hm]
    refine List.Nodup.append h (List.nodup_singleton k) ?_
    intro a ha hb
    rw [List.mem_singleton] at hb
    exact hm (hb ▸ ha)

theorem mem_keys_iff_mapGet_isSome {α : Type} (m : List (String × α)) (k : String) :
    k ∈ m.map Prod.fst ↔ (mapGet m k).isSome := by
  induction m with
  | nil => simp [mapGet]
  | cons kv rest ih =>
      by_cases h : kv.1 = k
      · simp [mapGet, h]
      · simp [mapGet, h, ih, Ne.symm h]

theorem mem_of_mapGet_eq_some {α : Type} (m : List (String × α)) (k : String) (v : α)
    (h : mapGet m k = some v) : (k, v) ∈ m := by
  induction m with
  | nil => simp [mapGet] at h
  | cons kv rest ih =>
      by_cases hk : kv.1 = k
      · rw [mapGet, if_pos hk] at h
        injection h with hv
        have hkv : kv = (k, v) := by
          obtain ⟨k1, v1⟩ := kv
          simp_all
        rw [hkv]
        exact List.mem_cons_self _ _
      · rw [mapGet, if_neg hk] at h
        exact List.mem_cons_of_mem _ (ih h)

theorem mapGet_eq_some_of_mem {α : Type} (m : List (String × α)) (e : String × α)
    (hnd : (m.map Prod.fst).Nodup) (h : e ∈ m) : mapGet m e.1 = some e.2 := by
  induction m with
  | nil => simp at h
  | cons kv rest ih =>
      rcases List.mem_cons.mp h with he | he
      · rw [he, mapGet, if_pos rfl]
      · have hk : kv.1 ≠ e.1 := by
          intro hh
          have : e.1 ∈ rest.map Prod.fst := List.mem_map_of_mem Prod.fst he
          rw [List.map_cons, List.nodup_cons] at hnd
          exact hnd.1 (hh ▸ this)
        rw [mapGet, if_neg hk]
        exact ih (List.nodup_cons.mp (by simpa using hnd)).2 he

/-- If exactly one entry of a unique-key association list satisfies `P` on its
payload, filtering by `P` yields that singleton. -/
theorem filter_eq_singleton_of_unique {α : Type} [DecidableEq α]
    (m : List (String × α)) (P : String × α → Bool) (k0 : String) (v0 : α)
    (hnd : (m.map Prod.fst).Nodup) (hmem : (k0, v0) ∈ m)
    (huniq : ∀ e ∈ m, P e → e = (k0, v0)) (hP : P (k0, v0)) :
    m.filter P = [(k0, v0)] := by
  induction m with
  | nil => simp at hmem
  | cons kv rest ih =>
      rw [List.map_cons, List.nodup_cons] at hnd
      rcases List.mem_cons.mp hmem with he | he
      · subst he
        rw [List.filter_cons, if_pos hP]
        have hrest : rest.filter P = [] := by
          rw [List.filter_eq_nil_iff]
          intro e hrest hPe
          have := huniq e (List.mem_cons_of_mem _ hrest) hPe
          subst this
          exact hnd.1 (List.mem_map_of_mem Prod.fst hrest)
        rw [hrest]
      · have hne : kv ≠ (k0, v0) := by
          intro hh
          subst hh
          exact hnd.1 (List.mem_map_of_mem Prod.fst he)
        have hnP : ¬ P kv := fun hPkv => hne (huniq kv (List.mem_cons_self _ _) hPkv)
        rw [List.filter_cons, if_neg (by simpa using hnP)]
        exact ih hnd.2 he (fun e hee hPe => huniq e (List.mem_cons_of_mem _ hee) hPe)

/-- `counts.set(key, (counts.get(key) ?? 0) + 1)`. -/
def bump (m : List (String × Nat)) (k : String) : List (String × Nat) :=
  mapSet m k ((mapGet m k).getD 0 + 1)

theorem mapGet_bump_fold (labels : List String) :
    ∀ (m0 : List (String × Nat)) (k : String),
      mapGet (labels.foldl bump m0) k =
        if labels.count k = 0 then mapGet m0 k
        else some ((mapGet m0 k).getD 0 + labels.count k) := by
  induction labels with
  | nil => intro m0 k; simp
  | cons a rest ih =>
      intro m0 k
      rw [List.foldl_cons, ih (bump m0 a) k]
      by_cases hk : a = k
      · subst hk
        have hb : mapGet (bump m0 a) a = some ((mapGet m0 a).getD 0 + 1) := by
          show mapGet (mapSet m0 a ((mapGet m0 a).getD 0 + 1)) a = _
          exact mapGet_mapSet_self _ _ _
        have hc : (a :: rest).count a = rest.count a + 1 := by
          simp [List.count_cons]
        by_cases h0 : rest.count a = 0
        · rw [if_pos h0, hb, hc, if_neg (by omega), h0]
        · rw [if_neg h0, hb, hc, if_neg (by omega)]
          simp only [Option.getD_some]
          congr 1
          omega
      · have hb : mapGet (bump m0 a) k = mapGet m0 k := by
          show mapGet (mapSet m0 a ((mapGet m0 a).getD 0 + 1)) k = _
          exact mapGet_mapSet_ne _ _ _ _ (Ne.symm hk)
        have hc : (a :: rest).count k = rest.count k := by
          simp [List.count_cons, hk]
        rw [hb, hc]

theorem nodup_keys_bump_fold (labels : List String) :
    ∀ (m0 : List (String × Nat)), (m0.map Prod.fst).Nodup →
      ((labels.foldl bump m0).map Prod.fst).Nodup := by
  induction labels with
  | nil => intro m0 h; simpa using h
  | cons a rest ih =>
      intro m0 h
      exact ih (bump m0 a) (nodup_keys_mapSet _ _ _ h)

/-! ### The reconciliation core (embedding of src/src/App.jsx) -/

def IDENTIFIER_KEYS : List String :=
  ["part number", "part", "sku", "pn", "component", "item", "id", "mpn",
   "manufacturer part number"]

def MANUFACTURER_FIELDS : List String := ["manufacturer", "brand", "maker", "vendor"]

def FAMILY_FIELDS : List String := ["family", "series", "product family", "product"]

/-- The candidate loop of `extractIdentifier`: the first priority key whose
binding in the lowercased-key object is truthy (present and non-empty). -/
def firstIdentifierHit : List String → Record → Option String
  | [], _ => none
  | c :: cs, r =>
      match lowerEntryGet r c with
      | some v => if v = "" then firstIdentifierHit cs r else some v
      | none => firstIdentifierHit cs r

/-- `extractIdentifier(record)`: first truthy priority-key binding uppercased,
else the record's first value uppercased, else the empty string. -/
def extractIdentifier (r : Record) : String :=
  match firstIdentifierHit IDENTIFIER_KEYS r with
  | some v => jsUpper v
  | none =>
      match r with
      | [] => ""
      | kv :: _ => if kv.2 = "" then "" else jsUpper kv.2

/-- Whitespace for the purposes of `String.prototype.trim`. -/
def isSpaceChar (c : Char) : Bool := c == ' ' || c == '\t' || c == '\n' || c == '\r'

/-- Model of `String.prototype.trim`: strip whitespace from both ends. -/
def jsTrim (s : String) : String :=
  ⟨((s.data.dropWhile isSpaceChar).reverse.dropWhile isSpaceChar).reverse⟩

/-- The inner loop of `getFieldValue` for one candidate field name: first
entry whose lowercased key matches and whose trimmed value is non-empty. -/
def fieldScan : Record → String → Option String
  | [], _ => none
  | kv :: rest, lowerField =>
      if jsLower kv.1 = lowerField ∧ jsTrim kv.2 ≠ "" then some (jsTrim kv.2)
      else fieldScan rest lowerField

def getFieldValueAux : List String → Record → Option String
  | [], _ => none
  | f :: fs, r =>
      match fieldScan r (jsLower f) with
      | some v => some v
      | none => getFieldValueAux fs r

/-- `getFieldValue(record, fieldNames)` (the Field Resolver). -/
def getFieldValue (r : Record) (fieldNames : List String) : String :=
  (getFieldValueAux fieldNames r).getD ""

structure MatchResult where
  found : List (Record × Record)
  missing : List (Record × String)
deriving DecidableEq

/-- The catalog index: `catalogIndex.set(identifier, record)` for each catalog
record with a truthy identifier, in order. -/
def buildCatalogIndex (records : List Record) : List (String × Record) :=
  records.foldl
    (fun idx record =>
      let identifier := extractIdentifier record
      if identifier = "" then idx else mapSet idx identifier record)
    []

/-- One iteration of the client-record classification loop. -/
def matchStep (catalogIndex : List (String × Record)) (acc : MatchResult)
    (record : Record) : MatchResult :=
  let identifier := extractIdentifier record
  if identifier = "" then ⟨acc.found, acc.missing ++ [(record, "No identifier detected")]⟩
  else
    match mapGet catalogIndex identifier with
    | some catalogRecord => ⟨acc.found ++ [(record, catalogRecord)], acc.missing⟩
    | none => ⟨acc.found, acc.missing ++ [(record, "Not present in catalog")]⟩

/-- The `matchResult` memo: early-returns two empty lists when no catalog is
selected or the client request set is empty; otherwise builds the index and
classifies every client record in order. -/
def matchResult (activeCatalog : Option (List Record)) (clientRecords : List Record) :
    MatchResult :=
  match activeCatalog with
  | none => ⟨[], []⟩
  | some records =>
      if clientRecords.length = 0 then ⟨[], []⟩
      else clientRecords.foldl (matchStep (buildCatalogIndex records)) ⟨[], []⟩

/-- `Math.round((c / t) * 100)` for non-negative integers `c`, `t`, modelled
exactly over the rationals: `⌊100 c / t + 1 / 2⌋`. -/
def jsRound100 (c t : Nat) : Nat := (200 * c + t) / (2 * t)

structure MatchStats where
  total : Nat
  found : Nat
  missing : Nat
  coverage : Nat
deriving DecidableEq

/-- The `matchStats` memo. -/
def matchStats (activeCatalog : Option (List Record)) (clientRecords : List Record) :
    MatchStats :=
  let total := clientRecords.length
  let found := (matchResult activeCatalog clientRecords).found.length
  let missing := (matchResult activeCatalog clientRecords).missing.length
  ⟨total, found, missing, if total = 0 then 0 else jsRound100 found total⟩

/-- Stable insertion step for descending sort by a numeric key. -/
def insertDesc {α : Type} (key : α → Nat) (x : α) : List α → List α
  | [] => [x]
  | y :: ys => if key y ≤ key x then x :: y :: ys else y :: insertDesc key x ys

/-- Stable descending sort by a numeric key: the model of
`Array.prototype.sort` (stable since ES2019) with the comparator
`(a, b) => key(b) - key(a)`. -/
def sortDesc {α : Type} (key : α → Nat) (l : List α) : List α :=
  l.foldr (insertDesc key) []

structure DupState where
  counts : List (String × Nat)
  dups : List (String × (String × Nat))
  unid : Nat

/-- The duplicate-detection key of an (index, record) pair:
`identifier || `row-${index}``. -/
def keyOfPair (p : Nat × Record) : String :=
  let identifier := extractIdentifier p.2
  if identifier = "" then "row-" ++ natStr p.1 else identifier

/-- The displayed label: `identifier || `Unidentified row ${index + 1}``. -/
def labelOfPair (p : Nat × Record) : String :=
  let identifier := extractIdentifier p.2
  if identifier = "" then "Unidentified row " ++ natStr (p.1 + 1) else identifier

/-- One iteration of the duplicate-detection loop of `requestInsights`. -/
def dupStep (s : DupState) (p : Nat × Record) : DupState :=
  let identifier := extractIdentifier p.2
  let key := keyOfPair p
  let current := (mapGet s.counts key).getD 0
  { counts := bump s.counts key
    dups := if 1 ≤ current then mapSet s.dups key (labelOfPair p, current + 1) else s.dups
    unid := if identifier = "" then s.unid + 1 else s.unid }

structure Insights where
  uniqueCount : Nat
  duplicateCount : Nat
  unidentifiedCount : Nat
  duplicates : List (String × Nat)
deriving DecidableEq

/-- The `requestInsights` memo. -/
def requestInsights (clientRecords : List Record) : Insights :=
  if clientRecords.length = 0 then ⟨0, 0, 0, []⟩
  else
    let s := clientRecords.enum.foldl dupStep ⟨[], [], 0⟩
    ⟨s.counts.length, clientRecords.length - s.counts.length, s.unid,
      sortDesc (fun e => e.2) (s.dups.map (fun e => e.2))⟩

structure TopEntry where
  name : String
  count : Nat
  percentage : Nat
deriving DecidableEq

/-- `getFieldValue(catalog, MANUFACTURER_FIELDS) || 'Unspecified manufacturer'`. -/
def manufacturerLabel (catalogRecord : Record) : String :=
  let v := getFieldValue catalogRecord MANUFACTURER_FIELDS
  if v = "" then "Unspecified manufacturer" else v

/-- `getFieldValue(catalog, FAMILY_FIELDS) || 'General catalog'`. -/
def familyLabel (catalogRecord : Record) : String :=
  let v := getFieldValue catalogRecord FAMILY_FIELDS
  if v = "" then "General catalog" else v

/-- Shared top-3 pipeline: tally, stable descending sort, take 3, annotate
with `Math.round(count / total * 100)`. -/
def topOf (labels : List String) (total : Nat) : List TopEntry :=
  ((sortDesc (fun e => e.2) (labels.foldl bump [])).take 3).map
    (fun kv => ⟨kv.1, kv.2, jsRound100 kv.2 total⟩)

/-- The `topManufacturers` memo. -/
def topManufacturers (activeCatalog : Option (List Record))
    (clientRecords : List Record) : List TopEntry :=
  let found := (matchResult activeCatalog clientRecords).found
  if found.length = 0 then []
  else topOf (found.map (fun pr => manufacturerLabel pr.2)) found.length

/-- The `topFamilies` memo. -/
def topFamilies (activeCatalog : Option (List Record))
    (clientRecords : List Record) : List TopEntry :=
  let found := (matchResult activeCatalog clientRecords).found
  if found.length = 0 then []
  else topOf (found.map (fun pr => familyLabel pr.2)) found.length

/-- The Match Engine classification rule as the specification words it:
empty identifier goes to missing with reason "No identifier detected";
an indexed identifier goes to found paired with the indexed catalog record;
otherwise missing with reason "Not present in catalog". -/
def specClassify (catalogIndex : List (String × Record)) (record : Record) :
    (Record × Record) ⊕ (Record × String) :=
  if extractIdentifier record = "" then Sum.inr (record, "No identifier detected")
  else
    match mapGet catalogIndex (extractIdentifier record) with
    | some catalogRecord => Sum.inl (record, catalogRecord)
    | none => Sum.inr (record, "Not present in catalog")

example : extractIdentifier [("PN", "a1")] = "A1" := by decide
example : extractIdentifier [("Notes", "loose part, no id")] = "LOOSE PART, NO ID" := by decide
example : extractIdentifier [] = "" := by decide
example :
    matchResult (some [[("Part Number", "ABC-1"), ("Manufacturer", "Acme")]]) [[("PN", "abc-1")]]
      = ⟨[([("PN", "abc-1")], [("Part Number", "ABC-1"), ("Manufacturer", "Acme")])], []⟩ := by
  decide
example : (requestInsights [[("PN", "A1")], [("PN", "a1")]]).duplicates = [("A1", 2)] := by decide
example : (matchStats (some [[("Part Number", "ABC-1")]]) [[("PN", "abc-1")]]).coverage = 100 := by
  decide

/-! ### Match Engine lemmas and claims C1–C3 -/

/-- The found pair of a classification, when it is one. -/
def foundPart : (Record × Record) ⊕ (Record × String) → Option (Record × Record)
  | Sum.inl a => some a
  | Sum.inr _ => none

/-- The missing pair of a classification, when it is one. -/
def missPart : (Record × Record) ⊕ (Record × String) → Option (Record × String)
  | Sum.inl _ => none
  | Sum.inr b => some b

@[simp] theorem foundPart_inl (a : Record × Record) : foundPart (Sum.inl a) = some a := rfl

@[simp] theorem foundPart_inr (b : Record × String) : foundPart (Sum.inr b) = none := rfl

@[simp] theorem missPart_inl (a : Record × Record) : missPart (Sum.inl a) = none := rfl

@[simp] theorem missPart_inr (b : Record × String) : missPart (Sum.inr b) = some b := rfl

theorem foldl_matchStep (idx : List (String × Record)) (l : List Record) :
    ∀ acc : MatchResult,
      l.foldl (matchStep idx) acc =
        ⟨acc.found ++ l.filterMap (fun r => foundPart (specClassify idx r)),
         acc.missing ++ l.filterMap (fun r => missPart (specClassify idx r))⟩ := by
  induction l with
  | nil => intro acc; cases acc; simp
  | cons r t ih =>
      intro acc
      rw [List.foldl_cons, ih]
      by_cases hid : extractIdentifier r = ""
      · simp [matchStep, specClassify, hid, List.filterMap_cons]
      · cases hidx : mapGet idx (extractIdentifier r) with
        | some c => simp [matchStep, specClassify, hid, hidx, List.filterMap_cons]
        | none => simp [matchStep, specClassify, hid, hidx, List.filterMap_cons]

theorem filterMap_classify_length (idx : List (String × Record)) (l : List Record) :
    (l.filterMap (fun r => foundPart (specClassify idx r))).length
      + (l.filterMap (fun r => missPart (specClassify idx r))).length = l.length := by
  induction l with
  | nil => rfl
  | cons r t ih =>
      rw [List.filterMap_cons, List.filterMap_cons]
      cases hc : specClassify idx r with
      | inl a => simp only [hc, foundPart_inl, missPart_inl, List.length_cons]; omega
      | inr b => simp only [hc, foundPart_inr, missPart_inr, List.length_cons]; omega

/-- C1: whenever an active catalog is selected, the match computation is a
total partition of the client request set: `found.length + missing.length`
equals the number of client records. -/
theorem matchResult_partition (catalogRecords clientRecords : List Record) :
    (matchResult (some catalogRecords) clientRecords).found.length
      + (matchResult (some catalogRecords) clientRecords).missing.length
      = clientRecords.length := by
  by_cases h0 : clientRecords.length = 0
  · simp [matchResult, h0]
  · simp only [matchResult, if_neg h0]
    rw [foldl_matchStep]
    simpa using filterMap_classify_length (buildCatalogIndex catalogRecords) clientRecords

/-- C2 (counterexample): with an active catalog that is selected but has no
records and a non-empty client request set, the missing list is not empty, so
"active catalog absent **or empty** implies both lists empty" fails as
stated. -/
theorem matchResult_empty_catalog_counterexample :
    ¬ ((matchResult (some ([] : List Record)) [[("SKU", "X9")]]).missing = []) := by
  decide

/-- C2 (amended): if the active catalog is absent, or the client request set
is empty, the match computation returns a MatchResult whose found and missing
lists are both empty (and no error is raised — the function is total). -/
theorem matchResult_absent_or_no_requests :
    (∀ clientRecords : List Record, matchResult none clientRecords = ⟨[], []⟩)
      ∧ (∀ activeCatalog : Option (List Record), matchResult activeCatalog [] = ⟨[], []⟩) := by
  constructor
  · intro clientRecords
    rfl
  · intro activeCatalog
    cases activeCatalog with
    | none => rfl
    | some records => simp [matchResult]

/-- C3: with a selected catalog and a non-empty client request set, each
client record is classified in input order exactly as specified (empty
identifier ⇒ missing "No identifier detected"; indexed identifier ⇒ found
with the indexed catalog record; otherwise missing "Not present in catalog"),
and both lists preserve the original relative order. -/
theorem matchResult_classification (catalogRecords clientRecords : List Record)
    (h : clientRecords ≠ []) :
    (matchResult (some catalogRecords) clientRecords).found
        = clientRecords.filterMap
            (fun r => foundPart (specClassify (buildCatalogIndex catalogRecords) r))
      ∧ (matchResult (some catalogRecords) clientRecords).missing
        = clientRecords.filterMap
            (fun r => missPart (specClassify (buildCatalogIndex catalogRecords) r)) := by
  have h0 : ¬ clientRecords.length = 0 := by
    simpa [List.length_eq_zero] using h
  simp only [matchResult, if_neg h0]
  rw [foldl_matchStep]
  simp

theorem matchResult_classification_witness :
    ([[("PN", "abc-1")]] : List Record) ≠ []
      ∧ ((matchResult (some [[("Part Number", "ABC-1")]]) [[("PN", "abc-1")]]).found
            = ([[("PN", "abc-1")]] : List Record).filterMap
                (fun r => foundPart (specClassify (buildCatalogIndex [[("Part Number", "ABC-1")]]) r))
          ∧ (matchResult (some [[("Part Number", "ABC-1")]]) [[("PN", "abc-1")]]).missing
            = ([[("PN", "abc-1")]] : List Record).filterMap
                (fun r => missPart (specClassify (buildCatalogIndex [[("Part Number", "ABC-1")]]) r))) :=
  ⟨by decide, matchResult_classification [[("Part Number", "ABC-1")]] [[("PN", "abc-1")]] (by decide)⟩

/-! ### Catalog Index: claim C5 -/

/-- Left-biased choice of two optional values. -/
def orO {α : Type} : Option α → Option α → Option α
  | some a, _ => some a
  | none, b => b

theorem orO_none_right {α : Type} (x : Option α) : orO x none = x := by
  cases x <;> rfl

theorem getLast?_cons_eq {α : Type} (a : α) (l : List α) :
    (a :: l).getLast? = some (l.getLast?.getD a) := by
  cases h : l.getLast? <;> simp [List.getLast?_cons, h]

theorem buildIndex_fold_lastMatch (recs : List Record) :
    ∀ (m : List (String × Record)) (k : String), k ≠ "" →
      mapGet (recs.foldl
          (fun idx record =>
            let identifier := extractIdentifier record
            if identifier = "" then idx else mapSet idx identifier record) m) k
        = orO ((recs.filter (fun r => extractIdentifier r == k)).getLast?) (mapGet m k) := by
  induction recs with
  | nil => intro m k hk; rfl
  | cons r rest ih =>
      intro m k hk
      rw [List.foldl_cons]
      by_cases hr : extractIdentifier r = k
      · have hb : (extractIdentifier r == k) = true := beq_iff_eq.mpr hr
        have hid : ¬ extractIdentifier r = "" := by rw [hr]; exact hk
        have hstep : (let identifier := extractIdentifier r
            if identifier = "" then m else mapSet m identifier r) = mapSet m k r := by
          simp only [hr, if_neg hk]
        rw [hstep, ih (mapSet m k r) k hk, List.filter_cons, if_pos hb]
        rw [mapGet_mapSet_self]
        rw [getLast?_cons_eq]
        cases hlast : (rest.filter (fun rr => extractIdentifier rr == k)).getLast? with
        | some x => simp [orO, hlast]
        | none => simp [orO, hlast]
      · have hb : (extractIdentifier r == k) = false := beq_eq_false_iff_ne.mpr hr
        have hstep : mapGet (rest.foldl
            (fun idx record =>
              let identifier := extractIdentifier record
              if identifier = "" then idx else mapSet idx identifier record)
            (let identifier := extractIdentifier r
             if identifier = "" then m else mapSet m identifier r)) k
            = orO ((rest.filter (fun rr => extractIdentifier rr == k)).getLast?) (mapGet m k) := by
          by_cases hid : extractIdentifier r = ""
          · rw [show (let identifier := extractIdentifier r
                if identifier = "" then m else mapSet m identifier r) = m from by
                  simp only [if_pos hid]]
            exact ih m k hk
          · rw [show (let identifier := extractIdentifier r
                if identifier = "" then m else mapSet m identifier r)
                  = mapSet m (extractIdentifier r) r from by simp only [if_neg hid]]
            rw [ih _ k hk, mapGet_mapSet_ne _ _ _ _ (Ne.symm hr)]
        rw [hstep, List.filter_cons, if_neg (by simp [hb])]

theorem buildIndex_fold_no_empty_key (recs : List Record) :
    ∀ m : List (String × Record),
      mapGet (recs.foldl
          (fun idx record =>
            let identifier := extractIdentifier record
            if identifier = "" then idx else mapSet idx identifier record) m) ""
        = mapGet m "" := by
  induction recs with
  | nil => intro m; rfl
  | cons r rest ih =>
      intro m
      rw [List.foldl_cons]
      by_cases hid : extractIdentifier r = ""
      · rw [show (let identifier := extractIdentifier r
            if identifier = "" then m else mapSet m identifier r) = m from by
              simp only [if_pos hid]]
        exact ih m
      · rw [show (let identifier := extractIdentifier r
            if identifier = "" then m else mapSet m identifier r)
              = mapSet m (extractIdentifier r) r from by simp only [if_neg hid]]
        rw [ih _, mapGet_mapSet_ne _ _ _ _ (fun hh => hid hh.symm)]

/-- C5: the catalog index skips records with an empty canonical identifier
(the empty key is never bound), and binds every other identifier to the last
catalog record carrying it (last-write-wins). -/
theorem buildCatalogIndex_lookup (catalogRecords : List Record) :
    (∀ k : String, k ≠ "" →
        mapGet (buildCatalogIndex catalogRecords) k
          = (catalogRecords.filter (fun r => extractIdentifier r == k)).getLast?)
      ∧ mapGet (buildCatalogIndex catalogRecords) "" = none := by
  constructor
  · intro k hk
    have h := buildIndex_fold_lastMatch catalogRecords [] k hk
    rw [show mapGet ([] : List (String × Record)) k = none from rfl, orO_none_right] at h
    exact h
  · exact buildIndex_fold_no_empty_key catalogRecords []

theorem buildCatalogIndex_lookup_witness :
    ("A1" ≠ "")
      ∧ mapGet (buildCatalogIndex
            [[("Part Number", "A1"), ("Manufacturer", "X")],
             [("Part Number", "A1"), ("Manufacturer", "Y")]]) "A1"
        = ([[("Part Number", "A1"), ("Manufacturer", "X")],
            [("Part Number", "A1"), ("Manufacturer", "Y")]].filter
              (fun r => extractIdentifier r == "A1")).getLast? :=
  ⟨by decide,
   (buildCatalogIndex_lookup
      [[("Part Number", "A1"), ("Manufacturer", "X")],
       [("Part Number", "A1"), ("Manufacturer", "Y")]]).1 "A1" (by decide)⟩

/-! ### Coverage statistics: claim C7 -/

theorem jsRound100_le_100 (c t : Nat) (h : c ≤ t) (ht : t ≠ 0) : jsRound100 c t ≤ 100 := by
  rw [jsRound100]
  have h2 : (200 * c + t) / (2 * t) < 101 := by
    rw [Nat.div_lt_iff_lt_mul (by omega)]
    omega
  omega

/-- C7: coverage is 0 when the total is 0; otherwise it is
`round(found / total × 100)`, which is at most 100 whenever found ≤ total
(and is a natural number, hence at least 0). -/
theorem matchStats_coverage (activeCatalog : Option (List Record))
    (clientRecords : List Record) :
    ((matchStats activeCatalog clientRecords).total = 0 →
        (matchStats activeCatalog clientRecords).coverage = 0)
      ∧ ((matchStats activeCatalog clientRecords).total ≠ 0 →
        (matchStats activeCatalog clientRecords).coverage
          = jsRound100 (matchStats activeCatalog clientRecords).found
              (matchStats activeCatalog clientRecords).total)
      ∧ ((matchStats activeCatalog clientRecords).found
            ≤ (matchStats activeCatalog clientRecords).total →
        (matchStats activeCatalog clientRecords).coverage ≤ 100) := by
  refine ⟨?_, ?_, ?_⟩
  · intro h
    simp only [matchStats] at h ⊢
    rw [if_pos h]
  · intro h
    simp only [matchStats] at h ⊢
    rw [if_neg h]
  · intro h
    simp only [matchStats] at h ⊢
    by_cases h0 : clientRecords.length = 0
    · rw [if_pos h0]; omega
    · rw [if_neg h0]
      exact jsRound100_le_100 _ _ h h0

theorem matchStats_coverage_witness :
    ((matchStats (some [[("Part Number", "ABC-1")]]) [[("PN", "abc-1")]]).total ≠ 0)
      ∧ (matchStats (some [[("Part Number", "ABC-1")]]) [[("PN", "abc-1")]]).coverage
          = jsRound100 (matchStats (some [[("Part Number", "ABC-1")]]) [[("PN", "abc-1")]]).found
              (matchStats (some [[("Part Number", "ABC-1")]]) [[("PN", "abc-1")]]).total :=
  ⟨by decide,
   (matchStats_coverage (some [[("Part Number", "ABC-1")]]) [[("PN", "abc-1")]]).2.1 (by decide)⟩

/-! ### Stable descending sort and tally lemmas -/

theorem insertDesc_perm {α : Type} (key : α → Nat) (x : α) (l : List α) :
    List.Perm (insertDesc key x l) (x :: l) := by
  induction l with
  | nil => exact List.Perm.refl _
  | cons y ys ih =>
      by_cases h : key y ≤ key x
      · rw [insertDesc, if_pos h]
      · rw [insertDesc, if_neg h]
        exact (List.Perm.cons y ih).trans (List.Perm.swap x y ys)

theorem sortDesc_perm {α : Type} (key : α → Nat) (l : List α) :
    List.Perm (sortDesc key l) l := by
  induction l with
  | nil => exact List.Perm.refl _
  | cons x xs ih =>
      show List.Perm (insertDesc key x (sortDesc key xs)) (x :: xs)
      exact (insertDesc_perm key x (sortDesc key xs)).trans (List.Perm.cons x ih)

theorem pairwise_insertDesc {α : Type} (key : α → Nat) (x : α) (l : List α)
    (h : l.Pairwise (fun a b => key b ≤ key a)) :
    (insertDesc key x l).Pairwise (fun a b => key b ≤ key a) := by
  induction l with
  | nil => simp [insertDesc]
  | cons y ys ih =>
      rw [List.pairwise_cons] at h
      by_cases hxy : key y ≤ key x
      · rw [insertDesc, if_pos hxy, List.pairwise_cons]
        refine ⟨?_, ?_⟩
        · intro b hb
          rcases List.mem_cons.mp hb with rfl | hb
          · exact hxy
          · exact le_trans (h.1 b hb) hxy
        · rw [List.pairwise_cons]
          exact ⟨h.1, h.2⟩
      · rw [insertDesc, if_neg hxy, List.pairwise_cons]
        refine ⟨?_, ih h.2⟩
        intro b hb
        rcases List.mem_cons.mp ((insertDesc_perm key x ys).mem_iff.mp hb) with rfl | hb2
        · omega
        · exact h.1 b hb2

theorem sortDesc_pairwise {α : Type} (key : α → Nat) (l : List α) :
    (sortDesc key l).Pairwise (fun a b => key b ≤ key a) := by
  induction l with
  | nil => simp [sortDesc]
  | cons x xs ih => exact pairwise_insertDesc key x _ ih

/-- The tally map built by repeated `bump` from the empty map binds each key
to its number of occurrences. -/
theorem tally_lookup (labels : List String) (k : String) :
    mapGet (labels.foldl bump []) k
      = if labels.count k = 0 then none else some (labels.count k) := by
  have h := mapGet_bump_fold labels [] k
  by_cases h0 : labels.count k = 0
  · rw [if_pos h0] at h ⊢
    exact h
  · rw [if_neg h0] at h ⊢
    rw [h]
    simp [mapGet]

theorem mem_tally_count (labels : List String) (e : String × Nat)
    (h : e ∈ labels.foldl bump []) : e.2 = labels.count e.1 ∧ labels.count e.1 ≠ 0 := by
  have hnd : ((labels.foldl bump []).map Prod.fst).Nodup :=
    nodup_keys_bump_fold labels [] (by simp)
  have hget : mapGet (labels.foldl bump []) e.1 = some e.2 :=
    mapGet_eq_some_of_mem _ _ hnd h
  rw [tally_lookup] at hget
  by_cases h0 : labels.count e.1 = 0
  · rw [if_pos h0] at hget
    exact absurd hget (by simp)
  · rw [if_neg h0] at hget
    injection hget with hv
    exact ⟨hv.symm, h0⟩

theorem tally_mem_of_count_ne_zero (labels : List String) (k : String)
    (h : labels.count k ≠ 0) : (k, labels.count k) ∈ labels.foldl bump [] := by
  apply mem_of_mapGet_eq_some
  rw [tally_lookup, if_neg h]

/-- The tally map has one binding per distinct label. -/
theorem tally_length (labels : List String) :
    (labels.foldl bump []).length = labels.toFinset.card := by
  have hnd := nodup_keys_bump_fold labels [] (by simp)
  have hlen : (labels.foldl bump []).length
      = ((labels.foldl bump []).map Prod.fst).length := by
    rw [List.length_map]
  rw [hlen, ← List.toFinset_card_of_nodup hnd]
  congr 1
  apply Finset.ext
  intro a
  simp only [List.mem_toFinset]
  rw [mem_keys_iff_mapGet_isSome, tally_lookup]
  by_cases h : labels.count a = 0
  · rw [if_pos h]
    simp [List.count_eq_zero.mp h]
  · rw [if_neg h]
    have ha : a ∈ labels := List.count_pos_iff.mp (Nat.pos_of_ne_zero h)
    simp [ha]

/-- Everything the spec asserts of the shared top-3 pipeline `topOf`: exactly
`min 3 (number of distinct labels)` entries are taken (so nothing short of the
top 3 is dropped), sorted descending by count, each entry carrying the
occurrence count of its label and the rounded percentage over `total`, and no
label outside the selection counted more often than a selected one. -/
theorem topOf_spec (labels : List String) (total : Nat) :
    (topOf labels total).length ≤ 3
      ∧ (topOf labels total).length = min 3 labels.toFinset.card
      ∧ (topOf labels total).Pairwise (fun a b => b.count ≤ a.count)
      ∧ (∀ e ∈ topOf labels total,
          e.count = labels.count e.name ∧ e.percentage = jsRound100 e.count total)
      ∧ (∀ e ∈ topOf labels total, ∀ k ∈ labels,
          (∀ e' ∈ topOf labels total, e'.name ≠ k) → labels.count k ≤ e.count) := by
  refine ⟨?_, ?_, ?_, ?_, ?_⟩
  · rw [topOf, List.length_map]
    exact le_trans (List.length_take_le _ _) (le_refl 3)
  · rw [topOf, List.length_map, List.length_take]
    congr 1
    rw [(sortDesc_perm (fun e => e.2) (labels.foldl bump [])).length_eq]
    exact tally_length labels
  · rw [topOf]
    rw [List.pairwise_map]
    exact List.Pairwise.sublist (List.take_sublist _ _)
      (sortDesc_pairwise (fun e => e.2) (labels.foldl bump []))
  · intro e he
    rw [topOf] at he
    obtain ⟨kv, hkv, rfl⟩ := List.mem_map.mp he
    have hmem : kv ∈ sortDesc (fun e => e.2) (labels.foldl bump []) :=
      List.take_subset _ _ hkv
    have htal : kv ∈ labels.foldl bump [] :=
      (sortDesc_perm (fun e => e.2) (labels.foldl bump [])).mem_iff.mp hmem
    have hc := mem_tally_count labels kv htal
    exact ⟨hc.1, rfl⟩
  · intro e he k hkmem hne
    rw [topOf] at he
    obtain ⟨kv, hkv, rfl⟩ := List.mem_map.mp he
    have hcnt : labels.count k ≠ 0 := by
      have : 0 < labels.count k := List.count_pos_iff.mpr hkmem
      omega
    have htalk : (k, labels.count k) ∈ labels.foldl bump [] :=
      tally_mem_of_count_ne_zero labels k hcnt
    have hsorted : (k, labels.count k) ∈ sortDesc (fun e => e.2) (labels.foldl bump []) :=
      (sortDesc_perm (fun e => e.2) (labels.foldl bump [])).mem_iff.mpr htalk
    rw [← List.take_append_drop 3 (sortDesc (fun e => e.2) (labels.foldl bump []))] at hsorted
    rcases List.mem_append.mp hsorted with hin | hin
    · exfalso
      have : (⟨k, labels.count k, jsRound100 (labels.count k) total⟩ : TopEntry)
          ∈ topOf labels total := by
        rw [topOf]
        exact List.mem_map.mpr ⟨(k, labels.count k), hin, rfl⟩
      exact hne _ this rfl
    · have hpw := sortDesc_pairwise (fun e => e.2) (labels.foldl bump [])
      rw [← List.take_append_drop 3 (sortDesc (fun e => e.2) (labels.foldl bump []))] at hpw
      have h3 := (List.pairwise_append.mp hpw).2.2
      exact h3 kv hkv (k, labels.count k) hin

/-- C6: both top-N distributions are computed over found pairs only, with the
descriptive field resolved by the Field Resolver and a fixed fallback label;
counts are per-distinct-value occurrence counts, the list is sorted descending
by count, the top 3 are taken (exactly `min 3 (number of distinct labels)`
entries, so nothing short of the top 3 is dropped), every entry's percentage
is `round(count / totalFoundCount × 100)`, and no unselected label outcounts a
selected one. -/
theorem topDistributions_found_only (activeCatalog : Option (List Record))
    (clientRecords : List Record) :
    ((topManufacturers activeCatalog clientRecords).length ≤ 3
      ∧ (topManufacturers activeCatalog clientRecords).length
        = min 3 ((matchResult activeCatalog clientRecords).found.map
            (fun pr => manufacturerLabel pr.2)).toFinset.card
      ∧ (topManufacturers activeCatalog clientRecords).Pairwise
          (fun a b => b.count ≤ a.count)
      ∧ (∀ e ∈ topManufacturers activeCatalog clientRecords,
          e.count = ((matchResult activeCatalog clientRecords).found.map
              (fun pr => manufacturerLabel pr.2)).count e.name
            ∧ e.percentage
              = jsRound100 e.count (matchResult activeCatalog clientRecords).found.length)
      ∧ (∀ e ∈ topManufacturers activeCatalog clientRecords,
          ∀ k ∈ (matchResult activeCatalog clientRecords).found.map
              (fun pr => manufacturerLabel pr.2),
          (∀ e' ∈ topManufacturers activeCatalog clientRecords, e'.name ≠ k) →
            ((matchResult activeCatalog clientRecords).found.map
              (fun pr => manufacturerLabel pr.2)).count k ≤ e.count))
    ∧ ((topFamilies activeCatalog clientRecords).length ≤ 3
      ∧ (topFamilies activeCatalog clientRecords).length
        = min 3 ((matchResult activeCatalog clientRecords).found.map
            (fun pr => familyLabel pr.2)).toFinset.card
      ∧ (topFamilies activeCatalog clientRecords).Pairwise
          (fun a b => b.count ≤ a.count)
      ∧ (∀ e ∈ topFamilies activeCatalog clientRecords,
          e.count = ((matchResult activeCatalog clientRecords).found.map
              (fun pr => familyLabel pr.2)).count e.name
            ∧ e.percentage
              = jsRound100 e.count (matchResult activeCatalog clientRecords).found.length)
      ∧ (∀ e ∈ topFamilies activeCatalog clientRecords,
          ∀ k ∈ (matchResult activeCatalog clientRecords).found.map
              (fun pr => familyLabel pr.2),
          (∀ e' ∈ topFamilies activeCatalog clientRecords, e'.name ≠ k) →
            ((matchResult activeCatalog clientRecords).found.map
              (fun pr => familyLabel pr.2)).count k ≤ e.count)) := by
  constructor
  · by_cases hF : (matchResult activeCatalog clientRecords).found.length = 0
    · have hF0 : (matchResult activeCatalog clientRecords).found = [] :=
        List.length_eq_zero.mp hF
      rw [show topManufacturers activeCatalog clientRecords = [] from by
        simp only [topManufacturers]
        rw [if_pos hF]]
      exact ⟨by simp, by simp [hF0], by simp, by simp, by simp⟩
    · rw [show topManufacturers activeCatalog clientRecords
          = topOf ((matchResult activeCatalog clientRecords).found.map
                (fun pr => manufacturerLabel pr.2))
              (matchResult activeCatalog clientRecords).found.length from by
        simp only [topManufacturers]
        rw [if_neg hF]]
      exact topOf_spec _ _
  · by_cases hF : (matchResult activeCatalog clientRecords).found.length = 0
    · have hF0 : (matchResult activeCatalog clientRecords).found = [] :=
        List.length_eq_zero.mp hF
      rw [show topFamilies activeCatalog clientRecords = [] from by
        simp only [topFamilies]
        rw [if_pos hF]]
      exact ⟨by simp, by simp [hF0], by simp, by simp, by simp⟩
    · rw [show topFamilies activeCatalog clientRecords
          = topOf ((matchResult activeCatalog clientRecords).found.map
                (fun pr => familyLabel pr.2))
              (matchResult activeCatalog clientRecords).found.length from by
        simp only [topFamilies]
        rw [if_neg hF]]
      exact topOf_spec _ _

/-- Sample catalog used to instantiate the hypothesis-bearing claims. -/
def sampleCatalog : List Record :=
  [[("Part Number", "ABC-1"), ("Manufacturer", "Acme"), ("Family", "X1")]]

/-- Sample client request set used to instantiate the hypothesis-bearing
claims. -/
def sampleClient : List Record := [[("PN", "abc-1")]]

theorem topDistributions_found_only_witness :
    ((⟨"Acme", 1, 100⟩ : TopEntry) ∈ topManufacturers (some sampleCatalog) sampleClient)
      ∧ ((⟨"Acme", 1, 100⟩ : TopEntry).count
            = ((matchResult (some sampleCatalog) sampleClient).found.map
                (fun pr => manufacturerLabel pr.2)).count (⟨"Acme", 1, 100⟩ : TopEntry).name
          ∧ (⟨"Acme", 1, 100⟩ : TopEntry).percentage
            = jsRound100 (⟨"Acme", 1, 100⟩ : TopEntry).count
                (matchResult (some sampleCatalog) sampleClient).found.length) := by
  have hm : (⟨"Acme", 1, 100⟩ : TopEntry)
      ∈ topManufacturers (some sampleCatalog) sampleClient := by
    have h : topManufacturers (some sampleCatalog) sampleClient
        = [⟨"Acme", 1, 100⟩] := by decide
    rw [h]
    exact List.mem_cons_self _ _
  exact ⟨hm, (topDistributions_found_only (some sampleCatalog) sampleClient).1.2.2.2.1 _ hm⟩

/-! ### Duplicate detection: the fold invariant -/

/-- The state of the duplicate-detection loop after processing a list of
(index, record) pairs. -/
def dupFold (ps : List (Nat × Record)) : DupState := ps.foldl dupStep ⟨[], [], 0⟩

theorem dupStep_counts (s : DupState) (p : Nat × Record) :
    (dupStep s p).counts = bump s.counts (keyOfPair p) := rfl

theorem dupStep_dups (s : DupState) (p : Nat × Record) :
    (dupStep s p).dups
      = if 1 ≤ (mapGet s.counts (keyOfPair p)).getD 0
        then mapSet s.dups (keyOfPair p)
          (labelOfPair p, (mapGet s.counts (keyOfPair p)).getD 0 + 1)
        else s.dups := rfl

theorem dupStep_unid (s : DupState) (p : Nat × Record) :
    (dupStep s p).unid = if extractIdentifier p.2 = "" then s.unid + 1 else s.unid := rfl

theorem dupFold_append_singleton (l : List (Nat × Record)) (p : Nat × Record) :
    dupFold (l ++ [p]) = dupStep (dupFold l) p := by
  rw [dupFold, List.foldl_append, List.foldl_cons, List.foldl_nil]
  rfl

theorem foldl_dupStep_counts (ps : List (Nat × Record)) :
    ∀ s : DupState, (ps.foldl dupStep s).counts = (ps.map keyOfPair).foldl bump s.counts := by
  induction ps with
  | nil => intro s; rfl
  | cons p t ih =>
      intro s
      rw [List.foldl_cons, List.map_cons, List.foldl_cons, ih, dupStep_counts]

theorem dupFold_counts_lookup (ps : List (Nat × Record)) (k : String) :
    mapGet (dupFold ps).counts k
      = if (ps.map keyOfPair).count k = 0 then none
        else some ((ps.map keyOfPair).count k) := by
  rw [dupFold, foldl_dupStep_counts]
  exact tally_lookup (ps.map keyOfPair) k

theorem dupFold_counts_nodup (ps : List (Nat × Record)) :
    ((dupFold ps).counts.map Prod.fst).Nodup := by
  rw [dupFold, foldl_dupStep_counts]
  exact nodup_keys_bump_fold _ [] (by simp)

theorem foldl_dupStep_unid (ps : List (Nat × Record)) :
    ∀ s : DupState, (ps.foldl dupStep s).unid
      = s.unid + ps.countP (fun p => extractIdentifier p.2 == "") := by
  induction ps with
  | nil => intro s; simp
  | cons p t ih =>
      intro s
      rw [List.foldl_cons, ih, dupStep_unid]
      by_cases h : extractIdentifier p.2 = ""
      · rw [if_pos h, List.countP_cons]
        simp [h]
        omega
      · rw [if_neg h, List.countP_cons]
        simp [h]

theorem count_keys_append_singleton (l : List (Nat × Record)) (p : Nat × Record)
    (k : String) :
    ((l ++ [p]).map keyOfPair).count k
      = (l.map keyOfPair).count k + (if keyOfPair p = k then 1 else 0) := by
  rw [List.map_append, List.count_append]
  by_cases h : keyOfPair p = k
  · simp [h, List.count_cons]
  · simp [h, List.count_cons, Ne.symm h]

/-- The duplicate map after the loop: its keys are unique; a key seen fewer
than twice is absent, and a key seen at least twice is bound to the label of
one of its occurrences together with its full occurrence count. -/
theorem dupFold_dups_char (ps : List (Nat × Record)) :
    ((dupFold ps).dups.map Prod.fst).Nodup
      ∧ ∀ k : String,
          ((ps.map keyOfPair).count k < 2 → mapGet (dupFold ps).dups k = none)
            ∧ (2 ≤ (ps.map keyOfPair).count k →
                ∃ p, p ∈ ps ∧ keyOfPair p = k
                  ∧ mapGet (dupFold ps).dups k
                    = some (labelOfPair p, (ps.map keyOfPair).count k)) := by
  induction ps using List.reverseRecOn with
  | nil =>
      refine ⟨by simp [dupFold, mapGet], ?_⟩
      intro k
      refine ⟨fun _ => rfl, fun h => absurd h (by simp)⟩
  | append_singleton l p ih =>
      rw [dupFold_append_singleton]
      have hcur : (mapGet (dupFold l).counts (keyOfPair p)).getD 0
          = (l.map keyOfPair).count (keyOfPair p) := by
        rw [dupFold_counts_lookup]
        by_cases h0 : (l.map keyOfPair).count (keyOfPair p) = 0
        · rw [if_pos h0, h0]; rfl
        · rw [if_neg h0]; rfl
      constructor
      · rw [dupStep_dups]
        by_cases hset : 1 ≤ (mapGet (dupFold l).counts (keyOfPair p)).getD 0
        · rw [if_pos hset]
          exact nodup_keys_mapSet _ _ _ ih.1
        · rw [if_neg hset]
          exact ih.1
      · intro k
        have hcnt := count_keys_append_singleton l p k
        by_cases hk : keyOfPair p = k
        · subst hk
          rw [hcnt, if_pos rfl]
          by_cases h0 : (l.map keyOfPair).count (keyOfPair p) = 0
          · constructor
            · intro _
              rw [dupStep_dups, if_neg (by omega : ¬ 1 ≤ (mapGet (dupFold l).counts (keyOfPair p)).getD 0)]
              exact (ih.2 (keyOfPair p)).1 (by omega)
            · intro habs
              omega
          · have hset : 1 ≤ (mapGet (dupFold l).counts (keyOfPair p)).getD 0 := by omega
            constructor
            · intro habs
              omega
            · intro _
              refine ⟨p, List.mem_append_right _ (List.mem_singleton_self p), rfl, ?_⟩
              rw [dupStep_dups, if_pos hset, hcur, mapGet_mapSet_self]
        · rw [hcnt, if_neg hk]
          have hpres : mapGet (dupStep (dupFold l) p).dups k = mapGet (dupFold l).dups k := by
            rw [dupStep_dups]
            by_cases hset : 1 ≤ (mapGet (dupFold l).counts (keyOfPair p)).getD 0
            · rw [if_pos hset, mapGet_mapSet_ne _ _ _ _ (Ne.symm hk)]
            · rw [if_neg hset]
          constructor
          · intro hlt
            rw [hpres]
            exact (ih.2 k).1 (by omega)
          · intro hge
            obtain ⟨q, hq, hkq, hget⟩ := (ih.2 k).2 (by omega)
            refine ⟨q, List.mem_append_left _ hq, hkq, ?_⟩
            rw [hpres]
            simpa using hget

/-! ### Request insights: claims C8–C9 -/

theorem requestInsights_eq (clientRecords : List Record)
    (h0 : clientRecords.length ≠ 0) :
    requestInsights clientRecords
      = ⟨(dupFold clientRecords.enum).counts.length,
         clientRecords.length - (dupFold clientRecords.enum).counts.length,
         (dupFold clientRecords.enum).unid,
         sortDesc (fun e => e.2) ((dupFold clientRecords.enum).dups.map (fun e => e.2))⟩ := by
  simp only [requestInsights]
  rw [if_neg h0]
  rfl

theorem dupFold_counts_length (ps : List (Nat × Record)) :
    (dupFold ps).counts.length = (ps.map keyOfPair).toFinset.card := by
  have hnd := dupFold_counts_nodup ps
  have hlen : (dupFold ps).counts.length = ((dupFold ps).counts.map Prod.fst).length := by
    rw [List.length_map]
  rw [hlen, ← List.toFinset_card_of_nodup hnd]
  congr 1
  apply Finset.ext
  intro a
  simp only [List.mem_toFinset]
  rw [mem_keys_iff_mapGet_isSome, dupFold_counts_lookup]
  by_cases h : (ps.map keyOfPair).count a = 0
  · rw [if_pos h]
    simp [List.count_eq_zero.mp h]
  · rw [if_neg h]
    have ha : a ∈ ps.map keyOfPair := List.count_pos_iff.mp (Nat.pos_of_ne_zero h)
    simp [ha]

theorem dupFold_counts_length_le (ps : List (Nat × Record)) :
    (dupFold ps).counts.length ≤ ps.length := by
  rw [dupFold_counts_length]
  calc (ps.map keyOfPair).toFinset.card ≤ (ps.map keyOfPair).length :=
        List.toFinset_card_le _
    _ = ps.length := List.length_map _ _

/-- C8: for a non-empty client request set,
`uniqueCount + duplicateCount = total`, with `uniqueCount` the number of
distinct duplicate-detection keys (canonical identifier, or the synthetic
per-row key for unidentified rows), `duplicateCount` the total minus the
number of distinct keys, and `unidentifiedCount` the number of client records
with an empty canonical identifier. -/
theorem requestInsights_invariants (clientRecords : List Record)
    (h : clientRecords ≠ []) :
    (requestInsights clientRecords).uniqueCount
          + (requestInsights clientRecords).duplicateCount
        = clientRecords.length
      ∧ (requestInsights clientRecords).uniqueCount
        = (clientRecords.enum.map keyOfPair).toFinset.card
      ∧ (requestInsights clientRecords).duplicateCount
        = clientRecords.length - (requestInsights clientRecords).uniqueCount
      ∧ (requestInsights clientRecords).unidentifiedCount
        = clientRecords.countP (fun r => extractIdentifier r == "") := by
  have h0 : clientRecords.length ≠ 0 := fun hh => h (List.length_eq_zero.mp hh)
  rw [requestInsights_eq clientRecords h0]
  have hle : (dupFold clientRecords.enum).counts.length ≤ clientRecords.length := by
    have hl := dupFold_counts_length_le clientRecords.enum
    rwa [List.enum_length] at hl
  refine ⟨by simp only []; omega, dupFold_counts_length _, rfl, ?_⟩
  show (dupFold clientRecords.enum).unid = _
  have hu := foldl_dupStep_unid clientRecords.enum ⟨[], [], 0⟩
  have hsnd : clientRecords.countP (fun r => extractIdentifier r == "")
      = clientRecords.enum.countP (fun p => extractIdentifier p.2 == "") := by
    conv_lhs => rw [← List.enum_map_snd clientRecords]
    rw [List.countP_map]
    rfl
  have hdf : dupFold clientRecords.enum
      = clientRecords.enum.foldl dupStep ⟨[], [], 0⟩ := rfl
  rw [hdf, hu, hsnd]
  simp

/-- Sample client request set with a case-insensitive duplicate and an
unidentifiable row. -/
def dupSampleClient : List Record := [[("PN", "A1")], [("PN", "a1")], []]

theorem requestInsights_invariants_witness :
    (dupSampleClient ≠ [])
      ∧ ((requestInsights dupSampleClient).uniqueCount
              + (requestInsights dupSampleClient).duplicateCount
            = dupSampleClient.length
          ∧ (requestInsights dupSampleClient).uniqueCount
            = (dupSampleClient.enum.map keyOfPair).toFinset.card
          ∧ (requestInsights dupSampleClient).duplicateCount
            = dupSampleClient.length - (requestInsights dupSampleClient).uniqueCount
          ∧ (requestInsights dupSampleClient).unidentifiedCount
            = dupSampleClient.countP (fun r => extractIdentifier r == "")) :=
  ⟨by decide, requestInsights_invariants dupSampleClient (by decide)⟩

/-- C9: duplicate detection keys client records by canonical identifier, so
identifiers differing only in case collapse to one key: any canonical
identifier key occurring at least twice yields exactly one duplicate entry,
labelled by the identifier and carrying the key's total occurrence count
(concretely, `{"PN":"A1"}` and `{"PN":"a1"}` give the single entry
`("A1", 2)`); and the duplicate list is sorted descending by occurrence
count. -/
theorem requestInsights_duplicates_spec :
    (∀ clientRecords : List Record,
        List.Pairwise (fun a b => b.2 ≤ a.2) (requestInsights clientRecords).duplicates)
      ∧ (∀ (clientRecords : List Record) (k : String), k ≠ "" → jsUpper k = k →
          2 ≤ (clientRecords.enum.map keyOfPair).count k →
          (requestInsights clientRecords).duplicates.filter (fun e => e.1 == k)
            = [(k, (clientRecords.enum.map keyOfPair).count k)])
      ∧ (requestInsights [[("PN", "A1")], [("PN", "a1")]]).duplicates = [("A1", 2)] := by
  refine ⟨?_, ?_, by decide⟩
  · intro clientRecords
    by_cases h0 : clientRecords.length = 0
    · simp only [requestInsights]
      rw [if_pos h0]
      simp
    · rw [requestInsights_eq clientRecords h0]
      exact sortDesc_pairwise _ _
  · intro clientRecords k hk hfix hcnt
    have h0 : clientRecords.length ≠ 0 := by
      intro hh
      rw [List.length_eq_zero] at hh
      subst hh
      simp [List.enum] at hcnt
    rw [requestInsights_eq clientRecords h0]
    obtain ⟨q, hq, hkq, hget⟩ := ((dupFold_dups_char clientRecords.enum).2 k).2 hcnt
    have hlq : labelOfPair q = k := by
      by_cases hid : extractIdentifier q.2 = ""
      · exfalso
        have hkey : keyOfPair q = "row-" ++ natStr q.1 := by
          simp only [keyOfPair]
          rw [if_pos hid]
        exact fixed_ne_row_append (natStr q.1) k hfix (hkey ▸ hkq)
      · have hkey : keyOfPair q = extractIdentifier q.2 := by
          simp only [keyOfPair]
          rw [if_neg hid]
        have hlab : labelOfPair q = extractIdentifier q.2 := by
          simp only [labelOfPair]
          rw [if_neg hid]
        rw [hlab, ← hkey, hkq]
    rw [hlq] at hget
    have hnd := (dupFold_dups_char clientRecords.enum).1
    have hmem : (k, (k, (clientRecords.enum.map keyOfPair).count k))
        ∈ (dupFold clientRecords.enum).dups := mem_of_mapGet_eq_some _ _ _ hget
    have huniq : ∀ e ∈ (dupFold clientRecords.enum).dups, (e.2.1 == k) = true →
        e = (k, (k, (clientRecords.enum.map keyOfPair).count k)) := by
      intro e he hP
      have hPk : e.2.1 = k := by simpa using hP
      have hgete : mapGet (dupFold clientRecords.enum).dups e.1 = some e.2 :=
        mapGet_eq_some_of_mem _ _ hnd he
      rcases Nat.lt_or_ge ((clientRecords.enum.map keyOfPair).count e.1) 2 with hlt | hge
      · have hnone := ((dupFold_dups_char clientRecords.enum).2 e.1).1 hlt
        rw [hnone] at hgete
        exact absurd hgete (by simp)
      · obtain ⟨q', hq', hkq', hget'⟩ := ((dupFold_dups_char clientRecords.enum).2 e.1).2 hge
        have he2 : e.2 = (labelOfPair q', (clientRecords.enum.map keyOfPair).count e.1) := by
          rw [hget'] at hgete
          injection hgete with hv
          exact hv.symm
        have hlabq' : labelOfPair q' = k := by
          rw [← hPk, he2]
        by_cases hid' : extractIdentifier q'.2 = ""
        · exfalso
          have hlab' : labelOfPair q' = "Unidentified row " ++ natStr (q'.1 + 1) := by
            simp only [labelOfPair]
            rw [if_pos hid']
          exact fixed_ne_unidentified_append (natStr (q'.1 + 1)) k hfix
            (by rw [← hlab', hlabq'])
        · have hkey' : keyOfPair q' = extractIdentifier q'.2 := by
            simp only [keyOfPair]
            rw [if_neg hid']
          have hlab' : labelOfPair q' = extractIdentifier q'.2 := by
            simp only [labelOfPair]
            rw [if_neg hid']
          have he1 : e.1 = k := by
            rw [← hkq', hkey', ← hlab', hlabq']
          have hval : e.2 = (k, (clientRecords.enum.map keyOfPair).count k) := by
            rw [he1] at hgete
            rw [hget] at hgete
            injection hgete with hv
            exact hv.symm
          obtain ⟨e1, e2⟩ := e
          simp only [] at he1 hval
          rw [he1, hval]
    have hfilter : (dupFold clientRecords.enum).dups.filter (fun e => e.2.1 == k)
        = [(k, (k, (clientRecords.enum.map keyOfPair).count k))] :=
      filter_eq_singleton_of_unique _ _ _ _ hnd hmem huniq (by simp)
    have hperm : List.Perm
        ((sortDesc (fun e => e.2)
            ((dupFold clientRecords.enum).dups.map (fun e => e.2))).filter
          (fun e => e.1 == k))
        (((dupFold clientRecords.enum).dups.map (fun e => e.2)).filter
          (fun e => e.1 == k)) :=
      (sortDesc_perm _ _).filter _
    have hfm : (((dupFold clientRecords.enum).dups.map (fun e => e.2)).filter
          (fun e => e.1 == k))
        = [(k, (clientRecords.enum.map keyOfPair).count k)] := by
      rw [List.filter_map]
      show ((dupFold clientRecords.enum).dups.filter (fun e => e.2.1 == k)).map
          (fun e => e.2) = _
      rw [hfilter]
      rfl
    rw [hfm] at hperm
    exact List.perm_singleton.mp hperm

theorem requestInsights_duplicates_spec_witness :
    ("A1" ≠ "" ∧ jsUpper "A1" = "A1"
        ∧ 2 ≤ (([[("PN", "A1")], [("PN", "a1")]] : List Record).enum.map keyOfPair).count "A1")
      ∧ (requestInsights [[("PN", "A1")], [("PN", "a1")]]).duplicates.filter
            (fun e => e.1 == "A1")
          = [("A1",
              (([[("PN", "A1")], [("PN", "a1")]] : List Record).enum.map keyOfPair).count "A1")] :=
  ⟨⟨by decide, by decide, by decide⟩,
   requestInsights_duplicates_spec.2.1 [[("PN", "A1")], [("PN", "a1")]] "A1"
     (by decide) (by decide) (by decide)⟩

/-! ### Canonical identifiers are uppercase fixed points: claim C10 -/

theorem string_data_inj (s t : String) (h : s.data = t.data) : s = t := by
  cases s
  cases t
  exact congrArg String.mk h

theorem extractIdentifier_empty_or_upper (r : Record) :
    extractIdentifier r = "" ∨ ∃ v, extractIdentifier r = jsUpper v := by
  rw [extractIdentifier.eq_def]
  cases hf : firstIdentifierHit IDENTIFIER_KEYS r with
  | some v =>
      right
      exact ⟨v, rfl⟩
  | none =>
      cases r with
      | nil => left; rfl
      | cons kv rest =>
          by_cases hv : kv.2 = ""
          · left
            show (if kv.2 = "" then "" else jsUpper kv.2) = ""
            rw [if_pos hv]
          · right
            refine ⟨kv.2, ?_⟩
            show (if kv.2 = "" then "" else jsUpper kv.2) = jsUpper kv.2
            rw [if_neg hv]

theorem row_key_inj (i j : Nat) (h : "row-" ++ natStr i = "row-" ++ natStr j) : i = j := by
  have hd := congrArg String.data h
  rw [data_append, data_append] at hd
  have hrow : "row-".data = ['r', 'o', 'w', '-'] := rfl
  rw [hrow] at hd
  simp only [List.cons_append, List.nil_append, List.cons.injEq, true_and] at hd
  exact natStr_inj i j (string_data_inj _ _ hd)

/-- C10: every canonical identifier is the empty string or a fixed point of
uppercasing; the synthetic lowercase key `row-<index>` can never equal a
non-empty canonical identifier; hence the duplicate-detection key of an
unidentified row differs from the key of every other row (identified or
unidentified). -/
theorem canonical_identifier_fixed_point :
    (∀ r : Record,
        extractIdentifier r = "" ∨ jsUpper (extractIdentifier r) = extractIdentifier r)
      ∧ (∀ (i : Nat) (r : Record), extractIdentifier r ≠ "" →
          "row-" ++ natStr i ≠ extractIdentifier r)
      ∧ (∀ (i j : Nat) (r r' : Record), i ≠ j → extractIdentifier r = "" →
          keyOfPair (i, r) ≠ keyOfPair (j, r')) := by
  have hfix : ∀ r : Record, extractIdentifier r ≠ "" →
      jsUpper (extractIdentifier r) = extractIdentifier r := by
    intro r hne
    rcases extractIdentifier_empty_or_upper r with h | ⟨v, hv⟩
    · exact absurd h hne
    · rw [hv, jsUpper_idem]
  refine ⟨?_, ?_, ?_⟩
  · intro r
    rcases extractIdentifier_empty_or_upper r with h | ⟨v, hv⟩
    · exact Or.inl h
    · exact Or.inr (by rw [hv, jsUpper_idem])
  · intro i r hne
    exact fixed_ne_row_append (natStr i) _ (hfix r hne)
  · intro i j r r' hij hid
    have hkey_i : keyOfPair (i, r) = "row-" ++ natStr i := by
      show (if extractIdentifier r = "" then "row-" ++ natStr i else extractIdentifier r) = _
      rw [if_pos hid]
    by_cases hid' : extractIdentifier r' = ""
    · have hkey_j : keyOfPair (j, r') = "row-" ++ natStr j := by
        show (if extractIdentifier r' = "" then "row-" ++ natStr j else extractIdentifier r') = _
        rw [if_pos hid']
      rw [hkey_i, hkey_j]
      intro hh
      exact hij (row_key_inj i j hh)
    · have hkey_j : keyOfPair (j, r') = extractIdentifier r' := by
        show (if extractIdentifier r' = "" then "row-" ++ natStr j else extractIdentifier r') = _
        rw [if_neg hid']
      rw [hkey_i, hkey_j]
      exact fixed_ne_row_append (natStr i) _ (hfix r' hid')

theorem canonical_identifier_fixed_point_witness :
    ((0 : Nat) ≠ 1 ∧ extractIdentifier ([] : Record) = "")
      ∧ keyOfPair (0, ([] : Record)) ≠ keyOfPair (1, [("PN", "a1")]) :=
  ⟨⟨by decide, by decide⟩,
   canonical_identifier_fixed_point.2.2 0 1 [] [("PN", "a1")] (by decide) (by decide)⟩

/-! ### Identifier extraction: claim C4 -/

theorem lowerEntryGet_eq_none (r : Record) (c : String)
    (h : ∀ kv ∈ r, jsLower kv.1 ≠ c) : lowerEntryGet r c = none := by
  induction r with
  | nil => rfl
  | cons kv t ih =>
      have ht : lowerEntryGet t c = none :=
        ih fun kv' h' => h kv' (List.mem_cons_of_mem _ h')
      show (match lowerEntryGet t c with
        | some v => some v
        | none => if jsLower kv.1 = c then some kv.2 else none) = none
      rw [ht]
      show (if jsLower kv.1 = c then some kv.2 else none) = none
      rw [if_neg (h kv (List.mem_cons_self _ _))]

theorem lowerEntryGet_mem (r : Record) (c v : String) (h : lowerEntryGet r c = some v) :
    ∃ k, (k, v) ∈ r ∧ jsLower k = c := by
  induction r with
  | nil => exact absurd h (by simp [lowerEntryGet])
  | cons kv t ih =>
      rw [show lowerEntryGet (kv :: t) c = (match lowerEntryGet t c with
        | some w => some w
        | none => if jsLower kv.1 = c then some kv.2 else none) from rfl] at h
      cases ht : lowerEntryGet t c with
      | some w =>
          rw [ht] at h
          injection h with hw
          subst hw
          obtain ⟨k, hk, hkl⟩ := ih ht
          exact ⟨k, List.mem_cons_of_mem _ hk, hkl⟩
      | none =>
          rw [ht] at h
          by_cases hc : jsLower kv.1 = c
          · rw [if_pos hc] at h
            injection h with hv2
            refine ⟨kv.1, ?_, hc⟩
            rw [← hv2]
            exact List.mem_cons_self _ _
          · rw [if_neg hc] at h
            exact absurd h (by simp)

theorem lowerEntryGet_of_mem_nodup (r : Record) (k v : String)
    (hnd : (r.map (fun kv => jsLower kv.1)).Nodup) (hkv : (k, v) ∈ r) :
    lowerEntryGet r (jsLower k) = some v := by
  induction r with
  | nil => exact absurd hkv (by simp)
  | cons kv0 t ih =>
      rw [List.map_cons, List.nodup_cons] at hnd
      rcases List.mem_cons.mp hkv with he | he
      · have hk0 : kv0.1 = k := by rw [← he]
        have hv0 : kv0.2 = v := by rw [← he]
        have ht : lowerEntryGet t (jsLower k) = none := by
          apply lowerEntryGet_eq_none
          intro kv' h' hc
          apply hnd.1
          rw [hk0]
          exact hc ▸ List.mem_map_of_mem _ h'
        show (match lowerEntryGet t (jsLower k) with
          | some w => some w
          | none => if jsLower kv0.1 = jsLower k then some kv0.2 else none) = some v
        rw [ht]
        show (if jsLower kv0.1 = jsLower k then some kv0.2 else none) = some v
        rw [hk0, if_pos rfl, hv0]
      · have ht := ih hnd.2 he
        show (match lowerEntryGet t (jsLower k) with
          | some w => some w
          | none => if jsLower kv0.1 = jsLower k then some kv0.2 else none) = some v
        rw [ht]

theorem firstIdentifierHit_eq_none (cs : List String) (r : Record)
    (h : ∀ c ∈ cs, lowerEntryGet r c = none) : firstIdentifierHit cs r = none := by
  induction cs with
  | nil => rfl
  | cons c cs' ih =>
      show (match lowerEntryGet r c with
        | some v => if v = "" then firstIdentifierHit cs' r else some v
        | none => firstIdentifierHit cs' r) = none
      rw [h c (List.mem_cons_self _ _)]
      exact ih fun c' h' => h c' (List.mem_cons_of_mem _ h')

theorem firstIdentifierHit_eq_some (r : Record) (c v : String)
    (hhit : lowerEntryGet r c = some v) (hv : v ≠ "") :
    ∀ cs : List String, cs.Nodup → c ∈ cs →
      (∀ c' ∈ cs, cs.indexOf c' < cs.indexOf c →
        lowerEntryGet r c' = none ∨ lowerEntryGet r c' = some "") →
      firstIdentifierHit cs r = some v := by
  intro cs
  induction cs with
  | nil => intro _ hc; exact absurd hc (by simp)
  | cons a cs' ih =>
      intro hnd hc hprev
      rw [List.nodup_cons] at hnd
      by_cases hac : a = c
      · subst hac
        show (match lowerEntryGet r a with
          | some w => if w = "" then firstIdentifierHit cs' r else some w
          | none => firstIdentifierHit cs' r) = some v
        rw [hhit]
        show (if v = "" then firstIdentifierHit cs' r else some v) = some v
        rw [if_neg hv]
      · have hc' : c ∈ cs' := by
          rcases List.mem_cons.mp hc with h1 | h1
          · exact absurd h1.symm hac
          · exact h1
        have hidxc : (a :: cs').indexOf c = cs'.indexOf c + 1 := by
          rw [List.indexOf_cons_ne _ hac]
        have hskip := hprev a (List.mem_cons_self _ _)
          (by rw [List.indexOf_cons_self, hidxc]; omega)
        have hrec : firstIdentifierHit cs' r = some v := by
          apply ih hnd.2 hc'
          intro c' h' hlt
          have hc'a : c' ≠ a := fun hh => hnd.1 (hh ▸ h')
          apply hprev c' (List.mem_cons_of_mem _ h')
          rw [List.indexOf_cons_ne _ (Ne.symm hc'a), hidxc]
          omega
        show (match lowerEntryGet r a with
          | some w => if w = "" then firstIdentifierHit cs' r else some w
          | none => firstIdentifierHit cs' r) = some v
        rcases hskip with hn | hs
        · rw [hn]
          exact hrec
        · rw [hs]
          show (if ("" : String) = "" then firstIdentifierHit cs' r else some "") = some v
          rw [if_pos rfl]
          exact hrec

theorem lowerEntryGet_congr (r r' : Record)
    (h : r.map (fun kv => (jsLower kv.1, kv.2)) = r'.map (fun kv => (jsLower kv.1, kv.2)))
    (c : String) : lowerEntryGet r c = lowerEntryGet r' c := by
  induction r generalizing r' with
  | nil =>
      cases r' with
      | nil => rfl
      | cons kv' t' => exact absurd h (by simp)
  | cons kv t ih =>
      cases r' with
      | nil => exact absurd h (by simp)
      | cons kv' t' =>
          simp only [List.map_cons, List.cons.injEq, Prod.mk.injEq] at h
          have ht := ih t' h.2
          show (match lowerEntryGet t c with
            | some w => some w
            | none => if jsLower kv.1 = c then some kv.2 else none)
            = (match lowerEntryGet t' c with
            | some w => some w
            | none => if jsLower kv'.1 = c then some kv'.2 else none)
          rw [ht, h.1.1, h.1.2]

theorem firstIdentifierHit_congr (r r' : Record)
    (h : r.map (fun kv => (jsLower kv.1, kv.2)) = r'.map (fun kv => (jsLower kv.1, kv.2))) :
    ∀ cs : List String, firstIdentifierHit cs r = firstIdentifierHit cs r' := by
  intro cs
  induction cs with
  | nil => rfl
  | cons c cs' ih =>
      show (match lowerEntryGet r c with
        | some v => if v = "" then firstIdentifierHit cs' r else some v
        | none => firstIdentifierHit cs' r)
        = (match lowerEntryGet r' c with
        | some v => if v = "" then firstIdentifierHit cs' r' else some v
        | none => firstIdentifierHit cs' r')
      rw [lowerEntryGet_congr r r' h c, ih]

/-- C4: `extractIdentifier` depends only on the lowercased keys (independence
from key casing); on a record with a non-empty priority-identifier field it
returns the value bound to the first matching priority key, uppercased; on a
record with no priority-identifier field it falls back to the first field's
value uppercased, or the empty string when the record is empty or that value
is empty. -/
theorem extractIdentifier_spec :
    (∀ r r' : Record,
        r.map (fun kv => (jsLower kv.1, kv.2)) = r'.map (fun kv => (jsLower kv.1, kv.2)) →
        extractIdentifier r = extractIdentifier r')
      ∧ (∀ (r : Record) (k v : String),
          (r.map (fun kv => jsLower kv.1)).Nodup → (k, v) ∈ r →
          jsLower k ∈ IDENTIFIER_KEYS → v ≠ "" →
          (∀ kv' ∈ r, kv'.2 ≠ "" → jsLower kv'.1 ∈ IDENTIFIER_KEYS →
            IDENTIFIER_KEYS.indexOf (jsLower k) ≤ IDENTIFIER_KEYS.indexOf (jsLower kv'.1)) →
          extractIdentifier r = jsUpper v)
      ∧ (∀ r : Record, (∀ kv ∈ r, jsLower kv.1 ∉ IDENTIFIER_KEYS) →
          extractIdentifier r
            = match r with
              | [] => ""
              | kv :: _ => if kv.2 = "" then "" else jsUpper kv.2) := by
  refine ⟨?_, ?_, ?_⟩
  · intro r r' h
    rw [extractIdentifier.eq_def, extractIdentifier.eq_def,
      firstIdentifierHit_congr r r' h IDENTIFIER_KEYS]
    cases hf : firstIdentifierHit IDENTIFIER_KEYS r' with
    | some v => rfl
    | none =>
        cases r with
        | nil =>
            cases r' with
            | nil => rfl
            | cons kv' t' => exact absurd h (by simp)
        | cons kv t =>
            cases r' with
            | nil => exact absurd h (by simp)
            | cons kv' t' =>
                simp only [List.map_cons, List.cons.injEq, Prod.mk.injEq] at h
                show (if kv.2 = "" then "" else jsUpper kv.2)
                  = (if kv'.2 = "" then "" else jsUpper kv'.2)
                rw [h.1.2]
  · intro r k v hnd hmem hin hv hmin
    have hhit : lowerEntryGet r (jsLower k) = some v :=
      lowerEntryGet_of_mem_nodup r k v hnd hmem
    have hprev : ∀ c' ∈ IDENTIFIER_KEYS,
        IDENTIFIER_KEYS.indexOf c' < IDENTIFIER_KEYS.indexOf (jsLower k) →
        lowerEntryGet r c' = none ∨ lowerEntryGet r c' = some "" := by
      intro c' hc' hlt
      cases hc0 : lowerEntryGet r c' with
      | none => exact Or.inl rfl
      | some w =>
          by_cases hw : w = ""
          · exact Or.inr (by rw [hw])
          · exfalso
            obtain ⟨k', hk', hkl⟩ := lowerEntryGet_mem r c' w hc0
            have hge := hmin (k', w) hk' hw (by rw [hkl]; exact hc')
            rw [hkl] at hge
            omega
    have hsome := firstIdentifierHit_eq_some r (jsLower k) v hhit hv IDENTIFIER_KEYS
      (by decide) hin hprev
    rw [extractIdentifier.eq_def, hsome]
  · intro r hnp
    have hall : ∀ c ∈ IDENTIFIER_KEYS, lowerEntryGet r c = none := by
      intro c hc
      apply lowerEntryGet_eq_none
      intro kv hkv hc'
      exact hnp kv hkv (hc' ▸ hc)
    rw [extractIdentifier.eq_def, firstIdentifierHit_eq_none IDENTIFIER_KEYS r hall]

theorem extractIdentifier_spec_witness :
    ((([("SKU", "x9"), ("pn", "a1")] : Record).map (fun kv => jsLower kv.1)).Nodup
        ∧ (("SKU", "x9") ∈ ([("SKU", "x9"), ("pn", "a1")] : Record))
        ∧ jsLower "SKU" ∈ IDENTIFIER_KEYS
        ∧ ("x9" : String) ≠ ""
        ∧ (∀ kv' ∈ ([("SKU", "x9"), ("pn", "a1")] : Record), kv'.2 ≠ "" →
            jsLower kv'.1 ∈ IDENTIFIER_KEYS →
            IDENTIFIER_KEYS.indexOf (jsLower "SKU")
              ≤ IDENTIFIER_KEYS.indexOf (jsLower kv'.1)))
      ∧ extractIdentifier [("SKU", "x9"), ("pn", "a1")] = jsUpper "x9" :=
  ⟨⟨by decide, List.mem_cons_self _ _, by decide, by decide, by decide⟩,
   extractIdentifier_spec.2.1 [("SKU", "x9"), ("pn", "a1")] "SKU" "x9"
     (by decide) (List.mem_cons_self _ _) (by decide) (by decide) (by decide)⟩

end ProductSearch
